import Mathlib

/-!
Verification of the chargelog aggregation and recommendation core.

This file gives a shallow embedding of the data pipeline of
`recommend_week.py` (shared conceptually with `heatmap_week.py`):
row filtering (`parseRow`, `records`), per-day/per-slot accumulation
(`accum`, `bins_data`), eligible-cell selection and contiguous-run
merging (`safe_keys`, `groupRuns`, `merge_and_score`), and the fallback
ranking (`top_k_runs`) together with the per-day report dispatch
(`dayReport`).

Python floats are modelled by exact rationals (`ℚ`); Python dicts by
association lists (with a no-duplicate-keys hypothesis where the claim
needs it); the `defaultdict` grid by a total function into `Cell`
together with the observation that a key is present in the real dict
iff its `n` field is nonzero.
-/

namespace Chargelog

/-- A bin key `(hour, minute)` inside one weekday, exactly the `(h, m)`
tuples used as keys of `bins_data[wd]` in `recommend_week.py`. -/
abbrev HM := Nat × Nat

/-- `BIN_MINUTES = 15` from the script header. -/
def BIN_MINUTES : Nat := 15

/-- `THRESHOLD = 0.80` from the script header, as an exact rational. -/
def THRESHOLD : ℚ := 80 / 100

/-- `MIN_RUN_BINS = 2` from the script header. -/
def MIN_RUN_BINS : Nat := 2

/-- `MIN_SAMPLES_PER_BIN = 1` from the script header. -/
def MIN_SAMPLES_PER_BIN : Nat := 1

/-- `TOP_K = 3` from the script header. -/
def TOP_K : Nat := 3

/-- One aggregated bin cell: the `{"n": ..., "ok": ...}` dict value of
`bins_data[wd][(h, m)]`. `n` is the sample count, `ok` the number of
samples with `available >= 1`. -/
structure Cell where
  n : Nat
  ok : Nat
deriving DecidableEq, Repr

/-- The empirical probability `p = ok / n` computed at line 97 of
`recommend_week.py` (the code only evaluates it when `n != 0`). -/
def cellProb (c : Cell) : ℚ := (c.ok : ℚ) / (c.n : ℚ)

/-- One day's bins, `bins_data[wd]`, as an association list. -/
abbrev DayBins := List (HM × Cell)

/-- `to_min = lambda hm: hm[0]*60 + hm[1]` from `merge_and_score` /
`top_k_runs` (integer-valued so differences behave as in Python). -/
def to_min (hm : HM) : Int := (hm.1 : Int) * 60 + (hm.2 : Int)

/-- Python ascending tuple comparison used by `safe_keys.sort()` and
`sorted(probs.keys())`: lexicographic on `(h, m)`. Both Python's sort
and `List.insertionSort` are stable, so sorting with this relation is
an exact model of the scripts' sorts. -/
def lexLe (x y : HM) : Prop :=
  x.1 < y.1 ∨ (x.1 = y.1 ∧ x.2 ≤ y.2)

instance : DecidableRel lexLe := fun x y => by
  unfold lexLe; infer_instance

instance : IsTotal HM lexLe :=
  ⟨by
    intro x y
    unfold lexLe
    rcases Nat.lt_trichotomy x.1 y.1 with h | h | h
    · exact Or.inl (Or.inl h)
    · rcases Nat.le_total x.2 y.2 with h2 | h2
      · exact Or.inl (Or.inr ⟨h, h2⟩)
      · exact Or.inr (Or.inr ⟨h.symm, h2⟩)
    · exact Or.inr (Or.inl h)⟩

instance : IsTrans HM lexLe :=
  ⟨by
    intro x y z hxy hyz
    unfold lexLe at *
    rcases hxy with h | ⟨he, hm⟩
    · rcases hyz with h2 | ⟨he2, _⟩
      · exact Or.inl (h.trans h2)
      · exact Or.inl (he2 ▸ h)
    · rcases hyz with h2 | ⟨he2, hm2⟩
      · exact Or.inl (he ▸ h2)
      · exact Or.inr ⟨he.trans he2, hm.trans hm2⟩⟩

/-- The `probs` dict built by both `merge_and_score` (lines 93-98) and
`top_k_runs` (lines 128-133): every key of `day_bins` whose cell has
`n != 0`, mapped to the pair `(p, n)`. Entries keep `day_bins` order. -/
def probsAssoc (d : DayBins) : List (HM × (ℚ × Nat)) :=
  d.filterMap fun e =>
    if e.2.n = 0 then none else some (e.1, (cellProb e.2, e.2.n))

/-- First-match association lookup, the model of a Python dict access
(the dicts in the scripts never carry duplicate keys, so first-match
and last-write coincide). -/
def assocFind {α : Type} : List (HM × α) → HM → Option α
  | [], _ => none
  | e :: es, j => if e.1 = j then some e.2 else assocFind es j

/-- The `probs[k]` lookup; in the scripts it is only ever applied to
keys present in the dict, so the default value is never observed. -/
def probOf (d : DayBins) (j : HM) : ℚ × Nat :=
  (assocFind (probsAssoc d) j).getD (0, 0)

/-- The cell stored in `day_bins` at a key (dict access on the day's
bins); default never observed where it is used. -/
def cellAt (d : DayBins) (j : HM) : Cell :=
  (assocFind d j).getD ⟨0, 0⟩

/-- `safe_keys` from `merge_and_score` (lines 93-100): keys of cells
with `n != 0`, probability `>= THRESHOLD` and `n >= MIN_SAMPLES_PER_BIN`
(threshold and floor taken as parameters, cf. spec section 6). -/
def safe_keys (thr : ℚ) (minS : Nat) (d : DayBins) : List HM :=
  d.filterMap fun e =>
    if e.2.n = 0 then none
    else if thr ≤ cellProb e.2 ∧ minS ≤ e.2.n then some e.1 else none

/-- The run-grouping loop of `merge_and_score` (lines 108-114) and
`top_k_runs` (lines 141-147): the sorted key list is split into maximal
segments exactly at the positions where the `to_min` difference of two
consecutive keys is not `step`. -/
def groupRuns (step : Int) : List HM → List (List HM)
  | [] => []
  | [j] => [[j]]
  | j :: j2 :: js =>
    match groupRuns step (j2 :: js) with
    | [] => [[j]]
    | r :: rs =>
      if to_min j2 - to_min j = step then (j :: r) :: rs else [j] :: r :: rs

/-- A merged interval `(start, end, weighted_p, total_n)` as appended
at lines 123 / 156 of `recommend_week.py` (`end` is a Lean keyword, so
the field is called `stop`). -/
structure Run where
  start : HM
  stop : HM
  wp : ℚ
  tot : Nat
deriving DecidableEq, Repr

/-- One iteration of the scoring loop shared verbatim by
`merge_and_score` (lines 116-123) and `top_k_runs` (lines 149-156):
drop a run shorter than `minRun`, take `start = r[0]`, `end = r[-1]`,
`total_n = Σ n`, skip the (unreachable) `total_n == 0` case, and report
the sample-weighted probability `Σ p·n / Σ n`. The `[]` arm is
unreachable: `groupRuns` only produces non-empty runs. -/
def scoreRun (pr : HM → ℚ × Nat) (minRun : Nat) : List HM → Option Run
  | [] => none
  | j :: js =>
    if (j :: js).length < minRun then none
    else
      let tot := ((j :: js).map fun i => (pr i).2).sum
      if tot = 0 then none
      else
        some ⟨j, js.getLastD j,
          ((j :: js).map fun i => (pr i).1 * ((pr i).2 : ℚ)).sum / (tot : ℚ), tot⟩

/-- The scoring loop over all runs. -/
def scoreRuns (pr : HM → ℚ × Nat) (minRun : Nat)
    (runs : List (List HM)) : List Run :=
  runs.filterMap (scoreRun pr minRun)

/-- `merge_and_score(day_bins)` (lines 91-124), parametrised by the
module constants `THRESHOLD`, `MIN_SAMPLES_PER_BIN`, `MIN_RUN_BINS`,
`BIN_MINUTES`. -/
def merge_and_score (thr : ℚ) (minS minRun : Nat) (step : Int)
    (d : DayBins) : List Run :=
  let sk := safe_keys thr minS d
  if sk.isEmpty then []
  else scoreRuns (probOf d) minRun (groupRuns step (sk.insertionSort lexLe))

/-- The sort key comparison of `top_k_runs` line 158: ascending on the
pair `(weighted probability, total samples)`. -/
def rankLe (x y : Run) : Prop :=
  x.wp < y.wp ∨ (x.wp = y.wp ∧ x.tot ≤ y.tot)

instance : DecidableRel rankLe := fun x y => by
  unfold rankLe; infer_instance

/-- The descending order `sort(key=..., reverse=True)` of line 158. -/
def rankGe (x y : Run) : Prop := rankLe y x

instance : DecidableRel rankGe := fun x y => by
  unfold rankGe; infer_instance

instance : IsTotal Run rankGe :=
  ⟨by
    intro x y
    unfold rankGe rankLe
    rcases lt_trichotomy x.wp y.wp with h | h | h
    · exact Or.inr (Or.inl h)
    · rcases Nat.le_total x.tot y.tot with h2 | h2
      · exact Or.inr (Or.inr ⟨h, h2⟩)
      · exact Or.inl (Or.inr ⟨h.symm, h2⟩)
    · exact Or.inl (Or.inl h)⟩

instance : IsTrans Run rankGe :=
  ⟨by
    intro x y z hxy hyz
    unfold rankGe rankLe at *
    rcases hyz with h | ⟨he, hm⟩
    · rcases hxy with h2 | ⟨he2, _⟩
      · exact Or.inl (h.trans h2)
      · exact Or.inl (he2 ▸ h)
    · rcases hxy with h2 | ⟨he2, hm2⟩
      · exact Or.inl (he ▸ h2)
      · exact Or.inr ⟨he.trans he2, hm.trans hm2⟩⟩

/-- `top_k_runs(day_bins, k)` (lines 126-159): score every maximal
contiguous run of populated bins regardless of threshold, sort by
`(weighted probability, total samples)` descending (Python
`reverse=True`; both that sort and `insertionSort` are stable), keep
the first `k`. -/
def top_k_runs (minRun : Nat) (step : Int) (k : Nat)
    (d : DayBins) : List Run :=
  let pa := probsAssoc d
  if pa.isEmpty then []
  else
    let keys := (pa.map Prod.fst).insertionSort lexLe
    let scored := scoreRuns (probOf d) minRun (groupRuns step keys)
    (scored.insertionSort rankGe).take k

/-- The three per-day report shapes of the loop at lines 166-186:
a safe-interval list, a "meilleurs observés" fallback list, or the
"aucun créneau exploitable (N mesures)" line carrying the day's total
measure count. -/
inductive DayOutcome where
  | safe : List Run → DayOutcome
  | bestObserved : List Run → DayOutcome
  | noUsable : Nat → DayOutcome
deriving DecidableEq, Repr

/-- One iteration of the report loop (lines 166-186) for one weekday:
safe intervals if any, else the top-k fallback if non-empty, else the
no-usable-slot line with `sum(d["n"] for d in day_bins.values())`. -/
def dayReport (thr : ℚ) (minS minRun : Nat) (step : Int) (k : Nat)
    (d : DayBins) : DayOutcome :=
  let merged := merge_and_score thr minS minRun step d
  if merged.isEmpty then
    let alt := top_k_runs minRun step k d
    if alt.isEmpty then DayOutcome.noUsable (d.map fun e => e.2.n).sum
    else DayOutcome.bestObserved alt
  else DayOutcome.safe merged

/-- A local-zone timestamp as far as the pipeline consumes one:
`ts_local.weekday()`, `ts_local.hour`, `ts_local.minute`. A real Python
`datetime` additionally guarantees `weekday < 7` and `minute < 60`;
theorems that need those bounds take them as hypotheses. -/
structure LocalDT where
  weekday : Nat
  hour : Nat
  minute : Nat
deriving DecidableEq, Repr

/-- One CSV row after the leaf-level parses, keeping exactly the
outcomes the filter loop (lines 49-75) branches on: `ts = none` models
a missing timestamp field or a string `datetime.fromisoformat` rejects;
`available`/`total` are `none` when the field is absent or `int()`
rejects it (the cases where `to_int_or_zero` returns `0`). -/
structure RawRow where
  ts : Option LocalDT
  available : Option Int
  total : Option Int
deriving DecidableEq, Repr

/-- `to_int_or_zero` (lines 43-47) on the modelled parse outcome. -/
def to_int_or_zero (v : Option Int) : Int := v.getD 0

/-- The window test `START_LOCAL <= ts_local.time() < END_LOCAL`
(line 70) with `START_LOCAL = time(9, 0)`, `END_LOCAL = time(17, 0)`.
Python compares `time` objects lexicographically on
`(hour, minute, second, microsecond)`, so with both bounds having zero
minutes the test is equivalent to `9 ≤ hour ∧ hour < 17`. -/
def inWindow (dt : LocalDT) : Prop := 9 ≤ dt.hour ∧ dt.hour < 17

instance (dt : LocalDT) : Decidable (inWindow dt) := by
  unfold inWindow; infer_instance

/-- One entry of `records` (line 75): the weekday, the binned hour and
minute of `binned_dt`, and the leniently parsed `available` count. -/
structure Rec where
  wd : Nat
  h : Nat
  m : Nat
  a : Int
deriving DecidableEq, Repr

/-- The body of the read-and-filter loop (lines 53-75) for one row:
skip on missing/unparseable timestamp, parse the counts leniently,
skip when `total <= 0`, skip when out of window, otherwise bin the
minute down to a multiple of `binMin` and emit the record. -/
def parseRow (binMin : Nat) (row : RawRow) : Option Rec :=
  match row.ts with
  | none => none
  | some dt =>
    let a := to_int_or_zero row.available
    let t := to_int_or_zero row.total
    if t ≤ 0 then none
    else if inWindow dt then
      some ⟨dt.weekday, dt.hour, dt.minute / binMin * binMin, a⟩
    else none

/-- The `records` list (lines 50-75): every row that survives the
filter, in file order. -/
def records (binMin : Nat) (rows : List RawRow) : List Rec :=
  rows.filterMap (parseRow binMin)

/-- The key `(wd, (h, m))` under which a record is accumulated. -/
def recKey (r : Rec) : Nat × HM := (r.wd, (r.h, r.m))

/-- The grid `bins_data` as a total function; a key is present in the
Python `defaultdict` iff some record touched it, i.e. iff `n ≠ 0`. -/
abbrev Grid := Nat × HM → Cell

/-- One step of the accumulation loop (lines 86-89):
`d["n"] += 1; d["ok"] += 1 if a >= 1 else 0` at the record's key. -/
def accum (g : Grid) (r : Rec) : Grid :=
  fun q =>
    if q = recKey r then
      ⟨(g q).n + 1, (g q).ok + (if 1 ≤ r.a then 1 else 0)⟩
    else g q

/-- The fresh `defaultdict` grid: every cell starts at `{"n":0,"ok":0}`. -/
def emptyGrid : Grid := fun _ => ⟨0, 0⟩

/-- `bins_data` after the accumulation loop (lines 85-89). -/
def bins_data (rs : List Rec) : Grid := rs.foldl accum emptyGrid

/-- Presence of a key in the `defaultdict`: only accumulation creates
entries, and it always sets `n ≥ 1`. -/
def populated (g : Grid) (q : Nat × HM) : Prop := (g q).n ≠ 0

instance (g : Grid) (q : Nat × HM) : Decidable (populated g q) := by
  unfold populated; infer_instance

/-- Spec-side formulation of "the day's data contains a contiguous run
of `len` qualifying-width bins": `len` keys, each one bin width after
the previous, all carrying at least one sample in `day_bins`. -/
def hasContigRun (step : Int) (len : Nat) (d : DayBins) : Prop :=
  ∃ ks : List HM, ks.length = len ∧
    ks.Chain' (fun a b => to_min b - to_min a = step) ∧
    ∀ j ∈ ks, ∃ c, (j, c) ∈ d ∧ c.n ≠ 0

/-! ### Association-list lemmas -/

theorem assocFind_mem {α : Type} {l : List (HM × α)} {j : HM} {v : α}
    (h : assocFind l j = some v) : (j, v) ∈ l := by
  induction l with
  | nil => simp [assocFind] at h
  | cons e es ih =>
    rw [assocFind] at h
    by_cases he : e.1 = j
    · rw [if_pos he] at h
      injection h with h
      subst h
      subst he
      exact List.mem_cons_self e es
    · rw [if_neg he] at h
      exact List.mem_cons_of_mem _ (ih h)

theorem assocFind_isSome_of_mem_keys {α : Type} {l : List (HM × α)} {j : HM}
    (h : j ∈ l.map Prod.fst) : ∃ v, assocFind l j = some v := by
  induction l with
  | nil => simp at h
  | cons e es ih =>
    rw [assocFind]
    by_cases he : e.1 = j
    · exact ⟨e.2, if_pos he⟩
    · rw [if_neg he]
      rcases List.mem_map.mp h with ⟨x, hx, hx1⟩
      rcases List.mem_cons.mp hx with rfl | hx'
      · exact absurd hx1 he
      · exact ih (List.mem_map.mpr ⟨x, hx', hx1⟩)

theorem assocFind_eq_some_of_mem {α : Type} {l : List (HM × α)} {j : HM} {v : α}
    (hnd : (l.map Prod.fst).Nodup) (h : (j, v) ∈ l) : assocFind l j = some v := by
  induction l with
  | nil => simp at h
  | cons e es ih =>
    rw [List.map_cons, List.nodup_cons] at hnd
    rw [assocFind]
    rcases List.mem_cons.mp h with rfl | h'
    · rw [if_pos rfl]
    · by_cases he : e.1 = j
      · exact absurd (he ▸ List.mem_map.mpr ⟨(j, v), h', rfl⟩) hnd.1
      · rw [if_neg he]
        exact ih hnd.2 h'

/-! ### `probsAssoc`, `cellAt` and `safe_keys` lemmas -/

theorem mem_probsAssoc {d : DayBins} {j : HM} {v : ℚ × Nat} :
    (j, v) ∈ probsAssoc d ↔ ∃ c, (j, c) ∈ d ∧ c.n ≠ 0 ∧ v = (cellProb c, c.n) := by
  unfold probsAssoc
  rw [List.mem_filterMap]
  constructor
  · rintro ⟨e, he, hfe⟩
    by_cases hn : e.2.n = 0
    · rw [if_pos hn] at hfe; cases hfe
    · rw [if_neg hn] at hfe
      injection hfe with hfe
      rw [Prod.mk.injEq] at hfe
      exact ⟨e.2, by rw [← hfe.1]; exact he, hn, hfe.2.symm⟩
  · rintro ⟨c, hc, hn, rfl⟩
    exact ⟨(j, c), hc, if_neg hn⟩

theorem mem_probsAssoc_keys {d : DayBins} {j : HM} :
    j ∈ (probsAssoc d).map Prod.fst ↔ ∃ c, (j, c) ∈ d ∧ c.n ≠ 0 := by
  rw [List.mem_map]
  constructor
  · rintro ⟨e, he, rfl⟩
    rcases mem_probsAssoc.mp he with ⟨c, hc, hn, _⟩
    exact ⟨c, hc, hn⟩
  · rintro ⟨c, hc, hn⟩
    exact ⟨(j, (cellProb c, c.n)), mem_probsAssoc.mpr ⟨c, hc, hn, rfl⟩, rfl⟩

/-- The keys of `probs` are a sublist of the keys of `day_bins`. -/
theorem probsAssoc_keys_sublist (d : DayBins) :
    ((probsAssoc d).map Prod.fst).Sublist (d.map Prod.fst) := by
  induction d with
  | nil => simp [probsAssoc]
  | cons e es ih =>
    unfold probsAssoc at *
    rw [List.filterMap_cons]
    by_cases hn : e.2.n = 0
    · rw [if_pos hn]
      exact ih.trans (List.sublist_cons_self _ _)
    · rw [if_neg hn, List.map_cons, List.map_cons]
      exact ih.cons₂ _

/-- Every value recorded in `probs` has a nonzero sample count. -/
theorem probOf_snd_ne_zero {d : DayBins} {j : HM}
    (h : j ∈ (probsAssoc d).map Prod.fst) : (probOf d j).2 ≠ 0 := by
  rcases assocFind_isSome_of_mem_keys h with ⟨v, hv⟩
  rcases mem_probsAssoc.mp (assocFind_mem hv) with ⟨c, _, hn, rfl⟩
  rw [probOf, hv, Option.getD_some]
  exact hn

/-- With duplicate-free keys, the `probs[k]` lookup returns exactly the
probability and count of the cell stored at `k` in `day_bins`. -/
theorem probOf_eq_cellAt {d : DayBins} {j : HM} {c : Cell}
    (hnd : (d.map Prod.fst).Nodup) (hc : (j, c) ∈ d) (hn : c.n ≠ 0) :
    cellAt d j = c ∧ probOf d j = (cellProb c, c.n) := by
  have h1 : assocFind d j = some c := assocFind_eq_some_of_mem hnd hc
  have hnd' : ((probsAssoc d).map Prod.fst).Nodup :=
    (probsAssoc_keys_sublist d).nodup hnd
  have h2 : assocFind (probsAssoc d) j = some (cellProb c, c.n) :=
    assocFind_eq_some_of_mem hnd' (mem_probsAssoc.mpr ⟨c, hc, hn, rfl⟩)
  exact ⟨by rw [cellAt, h1, Option.getD_some], by rw [probOf, h2, Option.getD_some]⟩

theorem mem_safe_keys {thr : ℚ} {minS : Nat} {d : DayBins} {j : HM} :
    j ∈ safe_keys thr minS d ↔
      ∃ c, (j, c) ∈ d ∧ c.n ≠ 0 ∧ thr ≤ cellProb c ∧ minS ≤ c.n := by
  unfold safe_keys
  rw [List.mem_filterMap]
  constructor
  · rintro ⟨e, he, hfe⟩
    by_cases hn : e.2.n = 0
    · rw [if_pos hn] at hfe; cases hfe
    · rw [if_neg hn] at hfe
      by_cases hsel : thr ≤ cellProb e.2 ∧ minS ≤ e.2.n
      · rw [if_pos hsel] at hfe
        injection hfe with hfe
        exact ⟨e.2, hfe ▸ he, hn, hsel.1, hsel.2⟩
      · rw [if_neg hsel] at hfe; cases hfe
  · rintro ⟨c, hc, hn, hp, hs⟩
    refine ⟨(j, c), hc, ?_⟩
    rw [if_neg hn, if_pos ⟨hp, hs⟩]

/-- The safe keys are a sublist of the day's keys. -/
theorem safe_keys_sublist (thr : ℚ) (minS : Nat) (d : DayBins) :
    (safe_keys thr minS d).Sublist (d.map Prod.fst) := by
  induction d with
  | nil => simp [safe_keys]
  | cons e es ih =>
    unfold safe_keys at *
    rw [List.filterMap_cons]
    by_cases hn : e.2.n = 0
    · rw [if_pos hn]
      exact ih.trans (List.sublist_cons_self _ _)
    · rw [if_neg hn]
      by_cases hsel : thr ≤ cellProb e.2 ∧ minS ≤ e.2.n
      · rw [if_pos hsel, List.map_cons]
        exact ih.cons₂ _
      · rw [if_neg hsel, List.map_cons]
        exact ih.trans (List.sublist_cons_self _ _)

/-- Every safe key is a key of `probs`. -/
theorem safe_keys_subset_probs_keys {thr : ℚ} {minS : Nat} {d : DayBins} {j : HM}
    (h : j ∈ safe_keys thr minS d) : j ∈ (probsAssoc d).map Prod.fst := by
  rcases mem_safe_keys.mp h with ⟨c, hc, hn, _, _⟩
  exact mem_probsAssoc_keys.mpr ⟨c, hc, hn⟩

/-! ### `groupRuns` lemmas -/

/-- The run-grouping loop only splits the list: concatenating the runs
gives back the sorted key list. -/
theorem groupRuns_flatten (step : Int) :
    (l : List HM) → (groupRuns step l).flatten = l
  | [] => by simp [groupRuns]
  | [j] => by simp [groupRuns]
  | j :: j2 :: js => by
    have ih := groupRuns_flatten step (j2 :: js)
    rw [groupRuns]
    rcases h : groupRuns step (j2 :: js) with _ | ⟨r, rs⟩
    · rw [h] at ih; simp at ih
    · rw [h] at ih
      dsimp only
      have ih' : r ++ rs.flatten = j2 :: js := by
        rw [← List.flatten_cons]; exact ih
      by_cases hd : to_min j2 - to_min j = step
      · rw [if_pos hd, List.flatten_cons, List.cons_append, ih']
      · rw [if_neg hd, List.flatten_cons, List.singleton_append,
          List.flatten_cons, ih']

/-- The first run produced for a non-empty list starts with the list's
head. -/
theorem groupRuns_head (step : Int) :
    (j : HM) → (js : List HM) →
    ∃ t rs, groupRuns step (j :: js) = (j :: t) :: rs
  | _, [] => ⟨[], [], rfl⟩
  | j, j2 :: js => by
    rcases groupRuns_head step j2 js with ⟨t2, rs2, h⟩
    rw [groupRuns, h]
    dsimp only
    by_cases hd : to_min j2 - to_min j = step
    · exact ⟨j2 :: t2, rs2, by rw [if_pos hd]⟩
    · exact ⟨[], (j2 :: t2) :: rs2, by rw [if_neg hd]⟩

/-- Every produced run is non-empty. -/
theorem groupRuns_ne_nil (step : Int) :
    (l : List HM) → ∀ r ∈ groupRuns step l, r ≠ []
  | [] => by simp [groupRuns]
  | [j] => by simp [groupRuns]
  | j :: j2 :: js => by
    intro r hr
    have ih := groupRuns_ne_nil step (j2 :: js)
    rcases groupRuns_head step j2 js with ⟨t2, rs2, hh⟩
    rw [groupRuns, hh] at hr
    dsimp only at hr
    by_cases hd : to_min j2 - to_min j = step
    · rw [if_pos hd] at hr
      rcases List.mem_cons.mp hr with rfl | hr'
      · exact List.cons_ne_nil _ _
      · exact ih r (by rw [hh]; exact List.mem_cons_of_mem _ hr')
    · rw [if_neg hd] at hr
      rcases List.mem_cons.mp hr with rfl | hr'
      · exact List.cons_ne_nil _ _
      · exact ih r (by rw [hh]; exact hr')

/-- Inside every produced run, consecutive keys differ by exactly one
bin width. -/
theorem groupRuns_chain (step : Int) :
    (l : List HM) → ∀ r ∈ groupRuns step l,
      r.Chain' (fun a b => to_min b - to_min a = step)
  | [] => by simp [groupRuns]
  | [j] => by simp [groupRuns]
  | j :: j2 :: js => by
    intro r hr
    have ih := groupRuns_chain step (j2 :: js)
    rcases groupRuns_head step j2 js with ⟨t2, rs2, hh⟩
    rw [groupRuns, hh] at hr
    dsimp only at hr
    by_cases hd : to_min j2 - to_min j = step
    · rw [if_pos hd] at hr
      rcases List.mem_cons.mp hr with rfl | hr'
      · have hc : (j2 :: t2).Chain' (fun a b => to_min b - to_min a = step) :=
          ih _ (by rw [hh]; exact List.mem_cons_self _ _)
        exact List.chain'_cons.mpr ⟨hd, hc⟩
      · exact ih r (by rw [hh]; exact List.mem_cons_of_mem _ hr')
    · rw [if_neg hd] at hr
      rcases List.mem_cons.mp hr with rfl | hr'
      · simp
      · exact ih r (by rw [hh]; exact hr')

/-- If the key list has no duplicates, distinct runs share no key. -/
theorem groupRuns_disjoint (step : Int) (l : List HM) (hnd : l.Nodup) :
    (groupRuns step l).Pairwise List.Disjoint :=
  (List.nodup_flatten.mp (by rw [groupRuns_flatten]; exact hnd)).2

/-- On a strictly sorted key list whose `to_min` values are all
multiples of `step`, two keys exactly one bin apart always land in the
same run: the grouping loop cannot split between them because no key
can lie strictly between two consecutive multiples of `step`. -/
theorem adj_mem_same_run (step : Int) (hstep : 0 < step) :
    (l : List HM) → l.Pairwise (fun a b => to_min a < to_min b) →
    (∀ x ∈ l, step ∣ to_min x) → ∀ a b, a ∈ l → b ∈ l →
    to_min b - to_min a = step →
    ∃ r ∈ groupRuns step l, a ∈ r ∧ b ∈ r
  | [] => by simp
  | [j] => by
    intro _ _ a b ha hb hab
    simp only [List.mem_singleton] at ha hb
    subst ha; subst hb
    omega
  | j :: j2 :: js => by
    intro hsort hlat a b ha hb hab
    have hsort' : (j2 :: js).Pairwise (fun a b => to_min a < to_min b) :=
      hsort.of_cons
    have hlat' : ∀ x ∈ j2 :: js, step ∣ to_min x := fun x hx =>
      hlat x (List.mem_cons_of_mem _ hx)
    have ih := adj_mem_same_run step hstep (j2 :: js) hsort' hlat'
    rcases groupRuns_head step j2 js with ⟨t2, rs2, hh⟩
    have hjlt : ∀ x ∈ j2 :: js, to_min j < to_min x :=
      (List.pairwise_cons.mp hsort).1
    rcases List.mem_cons.mp ha with rfl | ha'
    · -- the pair starts at the list head
      have hbj : b ≠ a := by
        intro h; subst h; omega
      have hb' : b ∈ j2 :: js := (List.mem_cons.mp hb).resolve_left hbj
      have h1 : step ∣ (to_min j2 - to_min a) :=
        dvd_sub (hlat' j2 (List.mem_cons_self _ _)) (hlat a (List.mem_cons_self _ _))
      have h2 : step ≤ to_min j2 - to_min a :=
        Int.le_of_dvd (by have := hjlt j2 (List.mem_cons_self _ _); omega) h1
      rcases List.mem_cons.mp hb' with rfl | hb''
      · rw [groupRuns, hh]
        dsimp only
        rw [if_pos hab]
        exact ⟨a :: b :: t2, List.mem_cons_self _ _,
          List.mem_cons_self _ _, List.mem_cons_of_mem _ (List.mem_cons_self _ _)⟩
      · have : to_min j2 < to_min b := (List.pairwise_cons.mp hsort').1 b hb''
        omega
    · -- both keys are in the tail; lift the tail's run
      have hbj : b ≠ j := by
        intro h; subst h
        have := hjlt a ha'
        omega
      have hb' : b ∈ j2 :: js := (List.mem_cons.mp hb).resolve_left hbj
      rcases ih a b ha' hb' hab with ⟨r, hr, har, hbr⟩
      rw [hh] at hr
      rw [groupRuns, hh]
      dsimp only
      by_cases hd : to_min j2 - to_min j = step
      · rw [if_pos hd]
        rcases List.mem_cons.mp hr with rfl | hr'
        · exact ⟨j :: j2 :: t2, List.mem_cons_self _ _,
            List.mem_cons_of_mem _ har, List.mem_cons_of_mem _ hbr⟩
        · exact ⟨r, List.mem_cons_of_mem _ hr', har, hbr⟩
      · rw [if_neg hd]
        exact ⟨r, List.mem_cons_of_mem _ hr, har, hbr⟩

/-- Strict sortedness gives distinct keys. -/
theorem nodup_of_sorted_to_min {l : List HM}
    (hsort : l.Pairwise (fun a b => to_min a < to_min b)) : l.Nodup :=
  hsort.imp fun h heq => by rw [heq] at h; exact lt_irrefl _ h

/-- A whole chain of step-adjacent keys of a strictly sorted lattice
list lands inside a single run. -/
theorem chain_sub_run (step : Int) (hstep : 0 < step) (l : List HM)
    (hsort : l.Pairwise (fun a b => to_min a < to_min b))
    (hlat : ∀ x ∈ l, step ∣ to_min x) :
    ∀ ks : List HM, ks ≠ [] →
    ks.Chain' (fun a b => to_min b - to_min a = step) →
    (∀ j ∈ ks, j ∈ l) → ∃ r ∈ groupRuns step l, ∀ j ∈ ks, j ∈ r := by
  intro ks
  induction ks with
  | nil => simp
  | cons a t ih =>
    intro _ hchain hmem
    cases t with
    | nil =>
      have ha : a ∈ (groupRuns step l).flatten := by
        rw [groupRuns_flatten]; exact hmem a (List.mem_cons_self _ _)
      rcases List.mem_flatten.mp ha with ⟨r, hr, har⟩
      refine ⟨r, hr, ?_⟩
      intro i hi
      rw [List.mem_singleton] at hi
      subst hi
      exact har
    | cons b t2 =>
      have hab : to_min b - to_min a = step := (List.chain'_cons.mp hchain).1
      rcases ih (List.cons_ne_nil _ _) hchain.tail
        (fun i hi => hmem i (List.mem_cons_of_mem _ hi)) with ⟨r, hr, hsub⟩
      rcases adj_mem_same_run step hstep l hsort hlat a b
        (hmem a (List.mem_cons_self _ _))
        (hmem b (List.mem_cons_of_mem _ (List.mem_cons_self _ _))) hab with
        ⟨r2, hr2, har2, hbr2⟩
      have hdisj := groupRuns_disjoint step l (nodup_of_sorted_to_min hsort)
      have hbr : b ∈ r := hsub b (List.mem_cons_self _ _)
      by_cases hrr : r = r2
      · subst hrr
        refine ⟨r, hr, ?_⟩
        intro i hi
        rcases List.mem_cons.mp hi with rfl | hi'
        · exact har2
        · exact hsub i hi'
      · have hsymm : Symmetric (List.Disjoint (α := HM)) :=
          fun _ _ h => h.symm
        exact ((hdisj.forall hsymm hr hr2 hrr) hbr hbr2).elim

/-! ### `scoreRun` lemmas -/

theorem scoreRun_eq_some {pr : HM → ℚ × Nat} {minRun : Nat} {j : HM}
    {js : List HM} {x : Run} :
    scoreRun pr minRun (j :: js) = some x ↔
      minRun ≤ (j :: js).length ∧
      ((j :: js).map fun i => (pr i).2).sum ≠ 0 ∧
      x = ⟨j, js.getLastD j,
        ((j :: js).map fun i => (pr i).1 * ((pr i).2 : ℚ)).sum /
          ((((j :: js).map fun i => (pr i).2).sum : Nat) : ℚ),
        ((j :: js).map fun i => (pr i).2).sum⟩ := by
  rw [scoreRun]
  by_cases hlen : (j :: js).length < minRun
  · rw [if_pos hlen]
    constructor
    · intro h; cases h
    · rintro ⟨h1, -, -⟩; omega
  · rw [if_neg hlen]
    dsimp only
    by_cases htot : ((j :: js).map fun i => (pr i).2).sum = 0
    · rw [if_pos htot]
      constructor
      · intro h; cases h
      · rintro ⟨-, h2, -⟩; exact (h2 htot).elim
    · rw [if_neg htot]
      constructor
      · intro h
        injection h with h
        exact ⟨Nat.le_of_not_lt hlen, htot, h.symm⟩
      · rintro ⟨-, -, rfl⟩; rfl

theorem mem_scoreRuns {pr : HM → ℚ × Nat} {minRun : Nat}
    {runs : List (List HM)} {x : Run} :
    x ∈ scoreRuns pr minRun runs ↔
      ∃ r, r ∈ runs ∧ scoreRun pr minRun r = some x := by
  unfold scoreRuns
  exact List.mem_filterMap

/-! ### Sorted-key lemmas -/

/-- A duplicate-free key list with real minutes (`< 60`), sorted by
Python tuple order, is strictly increasing in `to_min`. -/
theorem sortedKeys_pairwise {K : List HM} (hnd : K.Nodup)
    (hm : ∀ x ∈ K, x.2 < 60) :
    (K.insertionSort lexLe).Pairwise (fun a b => to_min a < to_min b) := by
  have hs : (K.insertionSort lexLe).Pairwise lexLe :=
    List.sorted_insertionSort lexLe K
  have hperm := List.perm_insertionSort lexLe K
  have hnd' : (K.insertionSort lexLe).Nodup := hperm.nodup_iff.mpr hnd
  have hm' : ∀ x ∈ K.insertionSort lexLe, x.2 < 60 := fun x hx =>
    hm x (hperm.subset hx)
  refine List.Pairwise.imp_of_mem ?_ (hs.and hnd')
  intro a b ha hb hab
  rcases hab with ⟨hlex, hne⟩
  have ha2 := hm' a ha
  have hb2 := hm' b hb
  unfold lexLe at hlex
  unfold to_min
  rcases hlex with h | ⟨he, hm2⟩
  · omega
  · have hne2 : a.2 ≠ b.2 := by
      intro h2
      exact hne (Prod.ext he h2)
    omega

/-! ### Minimum / maximum of a non-empty rational list -/

theorem exists_min_mem : (l : List ℚ) → l ≠ [] → ∃ lo ∈ l, ∀ q ∈ l, lo ≤ q
  | [], h => (h rfl).elim
  | [a], _ => ⟨a, List.mem_singleton_self a, by simp⟩
  | a :: b :: t, _ => by
    rcases exists_min_mem (b :: t) (List.cons_ne_nil _ _) with ⟨lo, hlo, hall⟩
    by_cases h1 : a ≤ lo
    · refine ⟨a, List.mem_cons_self _ _, ?_⟩
      intro q hq
      rcases List.mem_cons.mp hq with rfl | hq'
      · exact le_refl q
      · exact h1.trans (hall q hq')
    · refine ⟨lo, List.mem_cons_of_mem _ hlo, ?_⟩
      intro q hq
      rcases List.mem_cons.mp hq with rfl | hq'
      · exact (le_of_not_le h1)
      · exact hall q hq'

theorem exists_max_mem : (l : List ℚ) → l ≠ [] → ∃ hi ∈ l, ∀ q ∈ l, q ≤ hi
  | [], h => (h rfl).elim
  | [a], _ => ⟨a, List.mem_singleton_self a, by simp⟩
  | a :: b :: t, _ => by
    rcases exists_max_mem (b :: t) (List.cons_ne_nil _ _) with ⟨hi, hhi, hall⟩
    by_cases h1 : hi ≤ a
    · refine ⟨a, List.mem_cons_self _ _, ?_⟩
      intro q hq
      rcases List.mem_cons.mp hq with rfl | hq'
      · exact le_refl q
      · exact (hall q hq').trans h1
    · refine ⟨hi, List.mem_cons_of_mem _ hhi, ?_⟩
      intro q hq
      rcases List.mem_cons.mp hq with rfl | hq'
      · exact (le_of_not_le h1)
      · exact hall q hq'

/-! ### The weighted mean is bounded by the member probabilities -/

theorem natCast_sum_map (r : List HM) (f : HM → Nat) :
    (((r.map f).sum : Nat) : ℚ) = (r.map fun i => ((f i : Nat) : ℚ)).sum := by
  rw [Nat.cast_list_sum, List.map_map]
  rfl

theorem weighted_mean_bound (r : List HM) (pr : HM → ℚ × Nat)
    (lo hi : ℚ)
    (hlo : ∀ i ∈ r, lo ≤ (pr i).1) (hhi : ∀ i ∈ r, (pr i).1 ≤ hi)
    (hpos : 0 < ((((r.map fun i => (pr i).2).sum : Nat) : ℚ)) ) :
    lo ≤ (r.map fun i => (pr i).1 * ((pr i).2 : ℚ)).sum /
        ((((r.map fun i => (pr i).2).sum : Nat) : ℚ) ) ∧
      (r.map fun i => (pr i).1 * ((pr i).2 : ℚ)).sum /
        ((((r.map fun i => (pr i).2).sum : Nat) : ℚ) ) ≤ hi := by
  constructor
  · rw [le_div_iff₀ hpos, natCast_sum_map]
    calc lo * (r.map fun i => (((pr i).2 : Nat) : ℚ)).sum
        = (r.map fun i => lo * (((pr i).2 : Nat) : ℚ)).sum := by
          rw [List.sum_map_mul_left]
      _ ≤ (r.map fun i => (pr i).1 * ((pr i).2 : ℚ)).sum := by
          apply List.sum_le_sum
          intro i hi2
          exact mul_le_mul_of_nonneg_right (hlo i hi2) (Nat.cast_nonneg _)
  · rw [div_le_iff₀ hpos, natCast_sum_map]
    calc (r.map fun i => (pr i).1 * ((pr i).2 : ℚ)).sum
        ≤ (r.map fun i => hi * (((pr i).2 : Nat) : ℚ)).sum := by
          apply List.sum_le_sum
          intro i hi2
          exact mul_le_mul_of_nonneg_right (hhi i hi2) (Nat.cast_nonneg _)
      _ = hi * (r.map fun i => (((pr i).2 : Nat) : ℚ)).sum := by
          rw [List.sum_map_mul_left]

/-! ### Accumulation lemmas -/

theorem foldl_accum_apply (rs : List Rec) (g : Grid) (q : Nat × HM) :
    (rs.foldl accum g) q =
      ⟨(g q).n + rs.countP (fun r => decide (recKey r = q)),
       (g q).ok + rs.countP (fun r => decide (recKey r = q ∧ 1 ≤ r.a))⟩ := by
  induction rs generalizing g with
  | nil => simp
  | cons r t ih =>
    rw [List.foldl_cons, ih (accum g r), List.countP_cons, List.countP_cons]
    unfold accum
    simp only [decide_eq_true_eq]
    by_cases hq : q = recKey r
    · rw [if_pos hq, if_pos (show recKey r = q from hq.symm)]
      by_cases ha : 1 ≤ r.a
      · rw [if_pos (show recKey r = q ∧ 1 ≤ r.a from ⟨hq.symm, ha⟩), if_pos ha]
        rw [Cell.mk.injEq]
        constructor <;> dsimp only <;> omega
      · rw [if_neg (show ¬(recKey r = q ∧ 1 ≤ r.a) from fun h2 => ha h2.2),
          if_neg ha]
        rw [Cell.mk.injEq]
        constructor <;> dsimp only <;> omega
    · rw [if_neg hq, if_neg (show ¬(recKey r = q) from fun h2 => hq h2.symm),
        if_neg (show ¬(recKey r = q ∧ 1 ≤ r.a) from fun h2 => hq h2.1.symm)]
      rw [Cell.mk.injEq]
      constructor <;> dsimp only <;> omega

theorem bins_data_apply (rs : List Rec) (q : Nat × HM) :
    bins_data rs q =
      ⟨rs.countP (fun r => decide (recKey r = q)),
       rs.countP (fun r => decide (recKey r = q ∧ 1 ≤ r.a))⟩ := by
  rw [bins_data, foldl_accum_apply]
  simp [emptyGrid]

/-! ### Helpers shared by the merge / fallback theorems -/

/-- The last element defaulting to the head is a member of the list. -/
theorem getLastD_mem (j : HM) : (js : List HM) → js.getLastD j ∈ j :: js
  | [] => List.mem_cons_self _ _
  | b :: t => by
    rw [List.getLastD_cons]
    exact List.mem_cons_of_mem _ (getLastD_mem b t)

/-- A chain of exact `step` gaps with `step > 0` is strictly increasing
in `to_min`. -/
theorem chain_step_pairwise (step : Int) (hstep : 0 < step) :
    (ks : List HM) → ks.Chain' (fun a b => to_min b - to_min a = step) →
    ks.Pairwise (fun a b => to_min a < to_min b)
  | [] => by simp
  | a :: t => by
    intro hch
    cases t with
    | nil => simp
    | cons b t2 =>
      have hab := (List.chain'_cons.mp hch).1
      have ih := chain_step_pairwise step hstep (b :: t2) hch.tail
      rw [List.pairwise_cons]
      refine ⟨?_, ih⟩
      intro y hy
      rcases List.mem_cons.mp hy with rfl | hy'
      · omega
      · have := (List.pairwise_cons.mp ih).1 y hy'
        omega

/-- On a non-empty chain with positive step, the head is strictly
before the last element. -/
theorem chain_head_lt_getLast (step : Int) (hstep : 0 < step) :
    (j : HM) → (js : List HM) → js ≠ [] →
    (j :: js).Chain' (fun a b => to_min b - to_min a = step) →
    to_min j < to_min (js.getLastD j)
  | _, [], h => (h rfl).elim
  | j, b :: t, _ => by
    intro hch
    have hab := (List.chain'_cons.mp hch).1
    rw [List.getLastD_cons]
    cases t with
    | nil =>
      rw [show ([] : List HM).getLastD b = b from rfl]
      omega
    | cons c t2 =>
      have := chain_head_lt_getLast step hstep b (c :: t2)
        (List.cons_ne_nil _ _) hch.tail
      omega

/-- Taking a positive number of elements of a non-empty list is
non-empty. -/
theorem take_ne_nil {l : List Run} {k : Nat} (hl : l ≠ []) (hk : 1 ≤ k) :
    l.take k ≠ [] := by
  cases l with
  | nil => exact (hl rfl).elim
  | cons a t =>
    cases k with
    | zero => omega
    | succ k2 => exact List.cons_ne_nil _ _

/-- Membership in `merge_and_score` comes from the scoring loop over
the grouped sorted safe keys. -/
theorem mem_merge_and_score {thr : ℚ} {minS minRun : Nat} {step : Int}
    {d : DayBins} {x : Run} (hx : x ∈ merge_and_score thr minS minRun step d) :
    x ∈ scoreRuns (probOf d) minRun
      (groupRuns step ((safe_keys thr minS d).insertionSort lexLe)) := by
  rw [merge_and_score] at hx
  by_cases he : (safe_keys thr minS d).isEmpty
  · rw [if_pos he] at hx; cases hx
  · rwa [if_neg he] at hx

/-- Membership in `top_k_runs` comes from the scoring loop over the
grouped sorted populated keys. -/
theorem mem_top_k_runs {minRun : Nat} {step : Int} {k : Nat}
    {d : DayBins} {x : Run} (hx : x ∈ top_k_runs minRun step k d) :
    x ∈ scoreRuns (probOf d) minRun
      (groupRuns step (((probsAssoc d).map Prod.fst).insertionSort lexLe)) := by
  rw [top_k_runs] at hx
  by_cases he : (probsAssoc d).isEmpty
  · rw [if_pos he] at hx
    cases hx
  · rw [if_neg he] at hx
    have hx2 : x ∈ ((scoreRuns (probOf d) minRun
        (groupRuns step (((probsAssoc d).map Prod.fst).insertionSort
          lexLe))).insertionSort rankGe).take k := hx
    have h1 : x ∈ (scoreRuns (probOf d) minRun
        (groupRuns step (((probsAssoc d).map Prod.fst).insertionSort
          lexLe))).insertionSort rankGe :=
      (List.take_sublist _ _).subset hx2
    exact (List.perm_insertionSort rankGe _).subset h1

/-- A key appearing in any produced run over a sorted key list `K`
belongs to `K`. -/
theorem mem_of_mem_groupRuns {step : Int} {K : List HM} {r : List HM}
    {j : HM} (hr : r ∈ groupRuns step K) (hj : j ∈ r) : j ∈ K := by
  rw [← groupRuns_flatten step K]
  exact List.mem_flatten.mpr ⟨r, hr, hj⟩

/-- Every scored run of either scoring call consists of keys of
`probs`, is `minRun` long or more, is a chain with exact `step` gaps,
and the reported interval runs from its head to its last key; the
reported probability is the weighted mean of the member `(p, n)`
pairs, and the reported count their total `n`. -/
theorem scored_run_property {d : DayBins} {minRun : Nat}
    {runs : List (List HM)} {x : Run}
    (hnd : (d.map Prod.fst).Nodup)
    (hkeys : ∀ r ∈ runs, ∀ j ∈ r, j ∈ (probsAssoc d).map Prod.fst)
    (hx : x ∈ scoreRuns (probOf d) minRun runs) :
    ∃ ks : List HM, ks ≠ [] ∧
      (∀ j ∈ ks, ∃ c, (j, c) ∈ d ∧ c.n ≠ 0) ∧
      x.tot = (ks.map fun j => (cellAt d j).n).sum ∧
      x.wp = (ks.map fun j => cellProb (cellAt d j) * ((cellAt d j).n : ℚ)).sum
        / (x.tot : ℚ) ∧
      ∃ lo ∈ ks.map fun j => cellProb (cellAt d j),
        ∃ hi ∈ ks.map fun j => cellProb (cellAt d j),
          (∀ q ∈ ks.map fun j => cellProb (cellAt d j), lo ≤ q ∧ q ≤ hi) ∧
          lo ≤ x.wp ∧ x.wp ≤ hi := by
  rcases mem_scoreRuns.mp hx with ⟨r, hr, hscore⟩
  cases r with
  | nil => cases hscore
  | cons j js =>
    rw [scoreRun_eq_some] at hscore
    rcases hscore with ⟨hlen, htot, hxeq⟩
    have hmem : ∀ i ∈ j :: js, ∃ c, (i, c) ∈ d ∧ c.n ≠ 0 := by
      intro i hi
      exact mem_probsAssoc_keys.mp (hkeys _ hr i hi)
    have hpr : ∀ i ∈ j :: js,
        probOf d i = (cellProb (cellAt d i), (cellAt d i).n) ∧ (cellAt d i).n ≠ 0 := by
      intro i hi
      rcases hmem i hi with ⟨c, hc, hn⟩
      rcases probOf_eq_cellAt hnd hc hn with ⟨hca, hpo⟩
      rw [hca, hpo]
      exact ⟨rfl, hn⟩
    have hn_map : ((j :: js).map fun i => (probOf d i).2) =
        ((j :: js).map fun i => (cellAt d i).n) :=
      List.map_congr_left fun i hi => by rw [(hpr i hi).1]
    have hpn_map : ((j :: js).map fun i => (probOf d i).1 * ((probOf d i).2 : ℚ)) =
        ((j :: js).map fun i => cellProb (cellAt d i) * ((cellAt d i).n : ℚ)) :=
      List.map_congr_left fun i hi => by rw [(hpr i hi).1]
    have htot' : x.tot = ((j :: js).map fun i => (cellAt d i).n).sum := by
      rw [hxeq, ← hn_map]
    refine ⟨j :: js, List.cons_ne_nil _ _, hmem, htot', ?_, ?_⟩
    · rw [hxeq]
      dsimp only
      rw [hpn_map]
    · have hne : ((j :: js).map fun i => cellProb (cellAt d i)) ≠ [] := by
        simp
      rcases exists_min_mem _ hne with ⟨lo, hlo_mem, hlo⟩
      rcases exists_max_mem _ hne with ⟨hi, hhi_mem, hhi⟩
      have hpos : 0 < ((((j :: js).map fun i => (probOf d i).2).sum : Nat) : ℚ) := by
        have : ((j :: js).map fun i => (probOf d i).2).sum ≠ 0 := htot
        exact_mod_cast Nat.pos_of_ne_zero this
      have hbound := weighted_mean_bound (j :: js) (probOf d) lo hi
        (fun i hi2 => by
          rw [(hpr i hi2).1]
          exact hlo _ (List.mem_map.mpr ⟨i, hi2, rfl⟩))
        (fun i hi2 => by
          rw [(hpr i hi2).1]
          exact hhi _ (List.mem_map.mpr ⟨i, hi2, rfl⟩))
        hpos
      refine ⟨lo, hlo_mem, hi, hhi_mem, fun q hq => ⟨hlo q hq, hhi q hq⟩, ?_, ?_⟩
      · rw [hxeq]; exact hbound.1
      · rw [hxeq]; exact hbound.2

/-- The reported start and end of a scored run are members of the run. -/
theorem scoreRun_start_stop_mem {pr : HM → ℚ × Nat} {minRun : Nat}
    {r : List HM} {x : Run} (h : scoreRun pr minRun r = some x) :
    x.start ∈ r ∧ x.stop ∈ r := by
  cases r with
  | nil => cases h
  | cons j js =>
    rw [scoreRun_eq_some] at h
    rcases h with ⟨-, -, rfl⟩
    exact ⟨List.mem_cons_self _ _, getLastD_mem j js⟩

/-! ## The claims -/

/-- C2: an aggregated cell with sample count `n > 0` and probability
`p = successCount / n` is selected as a "safe" candidate for interval
merging if and only if `p ≥ threshold` and `n ≥ minSamplesPerBin`. -/
theorem C2_safe_cell_selection (thr : ℚ) (minS : Nat) (d : DayBins)
    (hnd : (d.map Prod.fst).Nodup) (j : HM) (c : Cell)
    (hmem : (j, c) ∈ d) (hn : 0 < c.n) :
    j ∈ safe_keys thr minS d ↔ (thr ≤ cellProb c ∧ minS ≤ c.n) := by
  constructor
  · intro h
    rcases mem_safe_keys.mp h with ⟨c2, hc2, _, hp2, hs2⟩
    have h1 := assocFind_eq_some_of_mem hnd hc2
    have h2 := assocFind_eq_some_of_mem hnd hmem
    rw [h1] at h2
    injection h2 with h2
    rw [← h2]
    exact ⟨hp2, hs2⟩
  · rintro ⟨hp, hs⟩
    exact mem_safe_keys.mpr ⟨c, hmem, Nat.pos_iff_ne_zero.mp hn, hp, hs⟩

theorem C2_witness :
    (([((9, 0), Cell.mk 2 2)] : DayBins).map Prod.fst).Nodup ∧
    ((9, 0), Cell.mk 2 2) ∈ ([((9, 0), Cell.mk 2 2)] : DayBins) ∧
    0 < (Cell.mk 2 2).n ∧
    ((9, 0) ∈ safe_keys (80 / 100) 1 [((9, 0), Cell.mk 2 2)] ↔
      (80 / 100 ≤ cellProb (Cell.mk 2 2) ∧ 1 ≤ (Cell.mk 2 2).n)) :=
  ⟨by decide, by decide, by decide,
    C2_safe_cell_selection (80 / 100) 1 _ (by decide) _ _ (by decide) (by decide)⟩

/-- C5: accumulation into the `(successCount, sampleCount)` grid is
order-independent — aggregating any permutation of the filtered sample
list yields an identical grid. -/
theorem C5_accumulation_order_independent (rs rs2 : List Rec)
    (hp : rs.Perm rs2) : bins_data rs = bins_data rs2 := by
  funext q
  rw [bins_data_apply, bins_data_apply, hp.countP_eq, hp.countP_eq]

theorem C5_witness :
    (([⟨0, 9, 0, 1⟩, ⟨0, 9, 15, 0⟩, ⟨2, 10, 0, 2⟩] : List Rec).Perm
      [⟨2, 10, 0, 2⟩, ⟨0, 9, 15, 0⟩, ⟨0, 9, 0, 1⟩]) ∧
    bins_data [⟨0, 9, 0, 1⟩, ⟨0, 9, 15, 0⟩, ⟨2, 10, 0, 2⟩] =
      bins_data [⟨2, 10, 0, 2⟩, ⟨0, 9, 15, 0⟩, ⟨0, 9, 0, 1⟩] :=
  ⟨by decide, C5_accumulation_order_independent _ _ (by decide)⟩

/-- C6 counterexample: the claim says every Sunday (weekday 6) key is
absent from the grid, but a Sunday sample inside the 09:00-17:00 window
is accumulated like any other: the filter loop never tests the weekday,
so the grid key `(6, (10, 0))` becomes populated. -/
theorem C6_counterexample_sunday_populated :
    populated
      (bins_data (records 15 [⟨some ⟨6, 10, 0⟩, some 1, some 2⟩]))
      (6, (10, 0)) := by
  decide

/-- C6 (amended): after aggregating any input, every populated grid key
has its slot inside the window — hour in `[9, 17)`, minute a multiple
of the bin width and below 60 — and a weekday in `{0..6}`; Sunday
(weekday 6) keys can be populated, the report loop simply never reads
them. -/
theorem C6_populated_key_window (binMin : Nat) (rows : List RawRow)
    (hvalid : ∀ row ∈ rows, ∀ dt, row.ts = some dt →
      dt.weekday < 7 ∧ dt.minute < 60)
    (q : Nat × HM)
    (hq : populated (bins_data (records binMin rows)) q) :
    q.1 < 7 ∧ 9 ≤ q.2.1 ∧ q.2.1 < 17 ∧ q.2.2 < 60 ∧ binMin ∣ q.2.2 := by
  have hq2 : (bins_data (records binMin rows) q).n ≠ 0 := hq
  rw [bins_data_apply] at hq2
  dsimp only at hq2
  have hex : ∃ r ∈ records binMin rows, recKey r = q := by
    by_contra hno
    push_neg at hno
    refine hq2 (List.countP_eq_zero.mpr fun r hr => ?_)
    simp only [decide_eq_true_eq]
    exact hno r hr
  rcases hex with ⟨r, hr, hkey⟩
  rcases List.mem_filterMap.mp hr with ⟨row, hrow, hparse⟩
  rw [parseRow] at hparse
  rcases hts : row.ts with _ | dt
  · rw [hts] at hparse; cases hparse
  · rw [hts] at hparse
    dsimp only at hparse
    by_cases ht : to_int_or_zero row.total ≤ 0
    · rw [if_pos ht] at hparse; cases hparse
    · rw [if_neg ht] at hparse
      by_cases hw : inWindow dt
      · rw [if_pos hw] at hparse
        injection hparse with hparse
        rcases hvalid row hrow dt hts with ⟨h7, h60⟩
        subst hparse
        rw [← hkey]
        unfold recKey
        dsimp only
        refine ⟨h7, hw.1, hw.2, ?_, ?_⟩
        · calc dt.minute / binMin * binMin ≤ dt.minute :=
            Nat.div_mul_le_self _ _
          _ < 60 := h60
        · exact dvd_mul_left binMin _
      · rw [if_neg hw] at hparse; cases hparse

theorem C6_witness :
    (∀ row ∈ ([⟨some ⟨6, 10, 0⟩, some 1, some 2⟩] : List RawRow),
      ∀ dt, row.ts = some dt → dt.weekday < 7 ∧ dt.minute < 60) ∧
    populated
      (bins_data (records 15 [⟨some ⟨6, 10, 0⟩, some 1, some 2⟩]))
      (6, (10, 0)) ∧
    (6 < 7 ∧ 9 ≤ 10 ∧ 10 < 17 ∧ 0 < 60 ∧ (15 : Nat) ∣ 0) :=
  ⟨by decide, by decide,
    C6_populated_key_window 15 [⟨some ⟨6, 10, 0⟩, some 1, some 2⟩]
      (by decide) (6, (10, 0)) (by decide)⟩

/-- C7: a malformed row — missing or unparseable timestamp, `total`
parsing to a non-positive value (non-numeric counts are treated as 0),
or a local time of day outside `[09:00, 17:00)` — is skipped: it yields
no record, contributes nothing to the grid, and every other row is
still processed. -/
theorem C7_malformed_row_skipped (binMin : Nat) (row : RawRow)
    (pre post : List RawRow)
    (hbad : row.ts = none ∨ to_int_or_zero row.total ≤ 0 ∨
      ∃ dt, row.ts = some dt ∧ ¬inWindow dt) :
    parseRow binMin row = none ∧
    records binMin (pre ++ row :: post) =
      records binMin pre ++ records binMin post ∧
    bins_data (records binMin (pre ++ row :: post)) =
      bins_data (records binMin (pre ++ post)) ∧
    to_int_or_zero none = 0 := by
  have hnone : parseRow binMin row = none := by
    rw [parseRow]
    rcases hts : row.ts with _ | dt
    · rfl
    · dsimp only
      rcases hbad with h | h | h
      · rw [hts] at h; cases h
      · rw [if_pos h]
      · rcases h with ⟨dt2, hdt2, hw⟩
        rw [hts] at hdt2
        injection hdt2 with hdt2
        subst hdt2
        by_cases ht : to_int_or_zero row.total ≤ 0
        · rw [if_pos ht]
        · rw [if_neg ht, if_neg hw]
  have hrec : records binMin (pre ++ row :: post) =
      records binMin pre ++ records binMin post := by
    rw [records, records, records, List.filterMap_append,
      List.filterMap_cons, hnone]
  refine ⟨hnone, hrec, ?_, rfl⟩
  have h2 : records binMin (pre ++ post) =
      records binMin pre ++ records binMin post := by
    simp only [records, List.filterMap_append]
  rw [hrec, h2]

theorem C7_witness :
    ((⟨some ⟨2, 18, 0⟩, some 1, some 2⟩ : RawRow).ts = none ∨
      to_int_or_zero (⟨some ⟨2, 18, 0⟩, some 1, some 2⟩ : RawRow).total ≤ 0 ∨
      ∃ dt, (⟨some ⟨2, 18, 0⟩, some 1, some 2⟩ : RawRow).ts = some dt ∧
        ¬inWindow dt) ∧
    parseRow 15 ⟨some ⟨2, 18, 0⟩, some 1, some 2⟩ = none ∧
    records 15 ([⟨some ⟨2, 10, 0⟩, some 1, some 2⟩] ++
        (⟨some ⟨2, 18, 0⟩, some 1, some 2⟩ : RawRow) ::
          [⟨some ⟨3, 11, 0⟩, some 0, some 2⟩]) =
      records 15 [⟨some ⟨2, 10, 0⟩, some 1, some 2⟩] ++
        records 15 [⟨some ⟨3, 11, 0⟩, some 0, some 2⟩] ∧
    bins_data (records 15 ([⟨some ⟨2, 10, 0⟩, some 1, some 2⟩] ++
        (⟨some ⟨2, 18, 0⟩, some 1, some 2⟩ : RawRow) ::
          [⟨some ⟨3, 11, 0⟩, some 0, some 2⟩])) =
      bins_data (records 15 ([⟨some ⟨2, 10, 0⟩, some 1, some 2⟩] ++
        [⟨some ⟨3, 11, 0⟩, some 0, some 2⟩])) ∧
    to_int_or_zero none = 0 :=
  ⟨Or.inr (Or.inr ⟨⟨2, 18, 0⟩, rfl, by decide⟩),
    C7_malformed_row_skipped 15 _ _ _
      (Or.inr (Or.inr ⟨⟨2, 18, 0⟩, rfl, by decide⟩))⟩

/-- C10: a row whose `available` field parses to a negative integer
while `total` is positive and the timestamp is in-window is not
rejected: it produces a record carrying the negative value, whose
accumulation increments the bin's sample count by 1 and leaves the
success count unchanged — exactly as if `available` were 0. -/
theorem C10_negative_available (binMin : Nat) (row : RawRow)
    (dt : LocalDT) (a t : Int)
    (hts : row.ts = some dt) (ha : row.available = some a) (haneg : a < 0)
    (ht : row.total = some t) (htpos : 0 < t) (hw : inWindow dt) :
    parseRow binMin row =
      some ⟨dt.weekday, dt.hour, dt.minute / binMin * binMin, a⟩ ∧
    (∀ g : Grid,
      accum g ⟨dt.weekday, dt.hour, dt.minute / binMin * binMin, a⟩ =
        accum g ⟨dt.weekday, dt.hour, dt.minute / binMin * binMin, 0⟩) ∧
    (∀ g : Grid,
      (accum g ⟨dt.weekday, dt.hour, dt.minute / binMin * binMin, a⟩
          (dt.weekday, (dt.hour, dt.minute / binMin * binMin))).n =
        (g (dt.weekday, (dt.hour, dt.minute / binMin * binMin))).n + 1 ∧
      (accum g ⟨dt.weekday, dt.hour, dt.minute / binMin * binMin, a⟩
          (dt.weekday, (dt.hour, dt.minute / binMin * binMin))).ok =
        (g (dt.weekday, (dt.hour, dt.minute / binMin * binMin))).ok) := by
  have hkey : recKey ⟨dt.weekday, dt.hour, dt.minute / binMin * binMin, a⟩ =
      (dt.weekday, (dt.hour, dt.minute / binMin * binMin)) := rfl
  refine ⟨?_, ?_, ?_⟩
  · rw [parseRow, hts]
    dsimp only
    rw [to_int_or_zero, to_int_or_zero, ha, ht]
    rw [Option.getD_some, Option.getD_some]
    rw [if_neg (by omega), if_pos hw]
  · intro g
    funext q
    simp only [accum, recKey]
    by_cases hq : q = (dt.weekday, (dt.hour, dt.minute / binMin * binMin))
    · rw [if_pos hq, if_pos hq,
        if_neg (show ¬(1 : Int) ≤ a from by omega),
        if_neg (show ¬(1 : Int) ≤ (0 : Int) from by omega)]
    · rw [if_neg hq, if_neg hq]
  · intro g
    simp only [accum, recKey]
    rw [if_pos trivial, if_neg (show ¬(1 : Int) ≤ a from by omega)]
    constructor <;> dsimp only <;> omega

theorem C10_witness :
    (⟨some ⟨1, 10, 20⟩, some (-2), some 2⟩ : RawRow).ts = some ⟨1, 10, 20⟩ ∧
    (⟨some ⟨1, 10, 20⟩, some (-2), some 2⟩ : RawRow).available = some (-2) ∧
    (-2 : Int) < 0 ∧
    (⟨some ⟨1, 10, 20⟩, some (-2), some 2⟩ : RawRow).total = some 2 ∧
    (0 : Int) < 2 ∧
    inWindow ⟨1, 10, 20⟩ ∧
    (parseRow 15 ⟨some ⟨1, 10, 20⟩, some (-2), some 2⟩ =
        some ⟨(⟨1, 10, 20⟩ : LocalDT).weekday, (⟨1, 10, 20⟩ : LocalDT).hour,
          (⟨1, 10, 20⟩ : LocalDT).minute / 15 * 15, -2⟩ ∧
      (∀ g : Grid,
        accum g ⟨(⟨1, 10, 20⟩ : LocalDT).weekday, (⟨1, 10, 20⟩ : LocalDT).hour,
            (⟨1, 10, 20⟩ : LocalDT).minute / 15 * 15, -2⟩ =
          accum g ⟨(⟨1, 10, 20⟩ : LocalDT).weekday, (⟨1, 10, 20⟩ : LocalDT).hour,
            (⟨1, 10, 20⟩ : LocalDT).minute / 15 * 15, 0⟩) ∧
      (∀ g : Grid,
        (accum g ⟨(⟨1, 10, 20⟩ : LocalDT).weekday, (⟨1, 10, 20⟩ : LocalDT).hour,
            (⟨1, 10, 20⟩ : LocalDT).minute / 15 * 15, -2⟩
            ((⟨1, 10, 20⟩ : LocalDT).weekday, ((⟨1, 10, 20⟩ : LocalDT).hour,
              (⟨1, 10, 20⟩ : LocalDT).minute / 15 * 15))).n =
          (g ((⟨1, 10, 20⟩ : LocalDT).weekday, ((⟨1, 10, 20⟩ : LocalDT).hour,
            (⟨1, 10, 20⟩ : LocalDT).minute / 15 * 15))).n + 1 ∧
        (accum g ⟨(⟨1, 10, 20⟩ : LocalDT).weekday, (⟨1, 10, 20⟩ : LocalDT).hour,
            (⟨1, 10, 20⟩ : LocalDT).minute / 15 * 15, -2⟩
            ((⟨1, 10, 20⟩ : LocalDT).weekday, ((⟨1, 10, 20⟩ : LocalDT).hour,
              (⟨1, 10, 20⟩ : LocalDT).minute / 15 * 15))).ok =
          (g ((⟨1, 10, 20⟩ : LocalDT).weekday, ((⟨1, 10, 20⟩ : LocalDT).hour,
            (⟨1, 10, 20⟩ : LocalDT).minute / 15 * 15))).ok)) :=
  ⟨rfl, rfl, by decide, rfl, by decide, by decide,
    C10_negative_available 15 _ _ _ _ rfl rfl (by decide) rfl (by decide)
      (by decide)⟩

/-- C8: a weekday with zero samples in the window reports
`noUsable 0`, while a weekday that has samples but neither a safe
interval nor a fallback run reports `noUsable n` with `n ≠ 0` — the
two outcomes are distinguishable. -/
theorem C8_no_data_day_distinct (thr : ℚ) (minS minRun : Nat) (step : Int)
    (k : Nat) (d2 : DayBins)
    (hd2 : ∃ e ∈ d2, e.2.n ≠ 0)
    (hms : merge_and_score thr minS minRun step d2 = [])
    (htk : top_k_runs minRun step k d2 = []) :
    dayReport thr minS minRun step k [] = DayOutcome.noUsable 0 ∧
    dayReport thr minS minRun step k d2 =
      DayOutcome.noUsable ((d2.map fun e => e.2.n).sum) ∧
    (d2.map fun e => e.2.n).sum ≠ 0 ∧
    dayReport thr minS minRun step k [] ≠ dayReport thr minS minRun step k d2 := by
  have h1 : dayReport thr minS minRun step k ([] : DayBins) =
      DayOutcome.noUsable 0 := rfl
  have hsum : (d2.map fun e => e.2.n).sum ≠ 0 := by
    rcases hd2 with ⟨e, he, hn⟩
    have hmem : e.2.n ∈ d2.map fun e => e.2.n := List.mem_map.mpr ⟨e, he, rfl⟩
    have := List.single_le_sum (fun x _ => Nat.zero_le x) _ hmem
    omega
  have h2 : dayReport thr minS minRun step k d2 =
      DayOutcome.noUsable ((d2.map fun e => e.2.n).sum) := by
    rw [dayReport, hms, htk]
    rfl
  refine ⟨h1, h2, hsum, ?_⟩
  rw [h1, h2]
  intro heq
  injection heq with heq
  exact hsum heq.symm

theorem C8_witness :
    (∃ e ∈ ([((9, 0), Cell.mk 1 0)] : DayBins), e.2.n ≠ 0) ∧
    merge_and_score (80 / 100) 1 2 15 [((9, 0), Cell.mk 1 0)] = [] ∧
    top_k_runs 2 15 3 [((9, 0), Cell.mk 1 0)] = [] ∧
    (dayReport (80 / 100) 1 2 15 3 [] = DayOutcome.noUsable 0 ∧
      dayReport (80 / 100) 1 2 15 3 [((9, 0), Cell.mk 1 0)] =
        DayOutcome.noUsable
          ((([((9, 0), Cell.mk 1 0)] : DayBins).map fun e => e.2.n).sum) ∧
      (([((9, 0), Cell.mk 1 0)] : DayBins).map fun e => e.2.n).sum ≠ 0 ∧
      dayReport (80 / 100) 1 2 15 3 [] ≠
        dayReport (80 / 100) 1 2 15 3 [((9, 0), Cell.mk 1 0)]) :=
  ⟨⟨((9, 0), Cell.mk 1 0), by decide, by decide⟩,
    by norm_num [merge_and_score, safe_keys, probsAssoc, cellProb, probOf,
      groupRuns, scoreRuns, scoreRun, List.filterMap, List.insertionSort, List.orderedInsert,
      lexLe, to_min, assocFind],
    by norm_num [top_k_runs, probsAssoc, cellProb, probOf, groupRuns,
      scoreRuns, scoreRun, List.insertionSort, List.orderedInsert, lexLe,
      rankGe, rankLe, to_min, assocFind],
    C8_no_data_day_distinct (80 / 100) 1 2 15 3 _
      ⟨((9, 0), Cell.mk 1 0), by decide, by decide⟩
      (by norm_num [merge_and_score, safe_keys, probsAssoc, cellProb, probOf,
        groupRuns, scoreRuns, scoreRun, List.filterMap, List.insertionSort,
        List.orderedInsert, lexLe, to_min, assocFind])
      (by norm_num [top_k_runs, probsAssoc, cellProb, probOf, groupRuns,
        scoreRuns, scoreRun, List.insertionSort, List.orderedInsert, lexLe,
        rankGe, rankLe, to_min, assocFind])⟩

/-- C3: every interval in the safe-interval output arises from a
retained run of at least `minRun` contiguous qualifying bins: the run
is a chain of exact one-bin gaps through safe keys, spans the interval
from its first to its last key, and (for the default `minRun ≥ 2`) an
isolated single qualifying bin can never yield an interval — the
reported start is strictly before the reported end. -/
theorem C3_short_runs_discarded (thr : ℚ) (minS minRun : Nat) (step : Int)
    (d : DayBins) :
    ∀ x ∈ merge_and_score thr minS minRun step d,
      ∃ r ∈ groupRuns step ((safe_keys thr minS d).insertionSort lexLe),
        minRun ≤ r.length ∧
        r.Chain' (fun a b => to_min b - to_min a = step) ∧
        (∀ j ∈ r, j ∈ safe_keys thr minS d) ∧
        r.head? = some x.start ∧ r.getLast? = some x.stop ∧
        (2 ≤ minRun → 0 < step → to_min x.start < to_min x.stop) := by
  intro x hx
  have hx2 := mem_merge_and_score hx
  rcases mem_scoreRuns.mp hx2 with ⟨r, hr, hscore⟩
  cases r with
  | nil => cases hscore
  | cons j js =>
    rw [scoreRun_eq_some] at hscore
    rcases hscore with ⟨hlen, htot, hxeq⟩
    refine ⟨j :: js, hr, hlen, groupRuns_chain step _ _ hr, ?_, ?_, ?_, ?_⟩
    · intro i hi
      exact (List.perm_insertionSort lexLe _).subset
        (mem_of_mem_groupRuns hr hi)
    · rw [hxeq]
      rfl
    · rw [hxeq]
      dsimp only
      rw [List.getLast?_cons, List.getLastD_eq_getLast?]
    · intro hmr hstep
      rw [hxeq]
      dsimp only
      have hjs : js ≠ [] := by
        intro h
        subst h
        simp at hlen
        omega
      exact chain_head_lt_getLast step hstep j js hjs
        (groupRuns_chain step _ _ hr)

theorem C3_witness :
    ∃ r ∈ groupRuns 15
        ((safe_keys (80 / 100) 1
          [((9, 0), Cell.mk 1 1), ((9, 15), Cell.mk 1 1)]).insertionSort lexLe),
      2 ≤ r.length ∧
      r.Chain' (fun a b => to_min b - to_min a = 15) ∧
      (∀ j ∈ r, j ∈ safe_keys (80 / 100) 1
        [((9, 0), Cell.mk 1 1), ((9, 15), Cell.mk 1 1)]) ∧
      r.head? = some (Run.mk (9, 0) (9, 15) 1 2).start ∧
      r.getLast? = some (Run.mk (9, 0) (9, 15) 1 2).stop ∧
      (2 ≤ 2 → 0 < (15 : Int) →
        to_min (Run.mk (9, 0) (9, 15) 1 2).start <
          to_min (Run.mk (9, 0) (9, 15) 1 2).stop) :=
  C3_short_runs_discarded (80 / 100) 1 2 15
    [((9, 0), Cell.mk 1 1), ((9, 15), Cell.mk 1 1)]
    (Run.mk (9, 0) (9, 15) 1 2)
    (by
      have h : merge_and_score (80 / 100) 1 2 15
          [((9, 0), Cell.mk 1 1), ((9, 15), Cell.mk 1 1)] =
          [Run.mk (9, 0) (9, 15) 1 2] := by
        norm_num [merge_and_score, safe_keys, probsAssoc, cellProb, probOf,
          groupRuns, scoreRuns, scoreRun, List.filterMap, List.insertionSort,
          List.orderedInsert, lexLe, to_min, assocFind]
      rw [h]
      exact List.mem_singleton_self _)

/-- C1: every retained run — both a safe interval from
`merge_and_score` and a fallback interval from `top_k_runs` — reports
as `weightedProbability` exactly the sample-count-weighted mean
`Σ(p_i·n_i) / Σ(n_i)` of its member cells, and this value lies between
the smallest and the largest member probability. -/
theorem C1_weighted_probability (thr : ℚ) (minS minRun : Nat) (step : Int)
    (k : Nat) (d : DayBins) (hnd : (d.map Prod.fst).Nodup) :
    ∀ x ∈ merge_and_score thr minS minRun step d ++ top_k_runs minRun step k d,
      ∃ ks : List HM, ks ≠ [] ∧
        (∀ j ∈ ks, ∃ c, (j, c) ∈ d ∧ c.n ≠ 0) ∧
        x.tot = (ks.map fun j => (cellAt d j).n).sum ∧
        x.wp = (ks.map fun j => cellProb (cellAt d j) * ((cellAt d j).n : ℚ)).sum
          / (x.tot : ℚ) ∧
        ∃ lo ∈ ks.map fun j => cellProb (cellAt d j),
          ∃ hi ∈ ks.map fun j => cellProb (cellAt d j),
            (∀ q ∈ ks.map fun j => cellProb (cellAt d j), lo ≤ q ∧ q ≤ hi) ∧
            lo ≤ x.wp ∧ x.wp ≤ hi := by
  intro x hx
  rcases List.mem_append.mp hx with hx | hx
  · exact scored_run_property hnd
      (fun r hr i hi => safe_keys_subset_probs_keys
        ((List.perm_insertionSort lexLe _).subset (mem_of_mem_groupRuns hr hi)))
      (mem_merge_and_score hx)
  · exact scored_run_property hnd
      (fun r hr i hi =>
        (List.perm_insertionSort lexLe _).subset (mem_of_mem_groupRuns hr hi))
      (mem_top_k_runs hx)

theorem C1_witness :
    (([((9, 0), Cell.mk 1 1), ((9, 15), Cell.mk 2 1)] : DayBins).map
      Prod.fst).Nodup ∧
    (∀ x ∈ merge_and_score (80 / 100) 1 2 15
          [((9, 0), Cell.mk 1 1), ((9, 15), Cell.mk 2 1)] ++
        top_k_runs 2 15 3 [((9, 0), Cell.mk 1 1), ((9, 15), Cell.mk 2 1)],
      ∃ ks : List HM, ks ≠ [] ∧
        (∀ j ∈ ks, ∃ c, (j, c) ∈
          ([((9, 0), Cell.mk 1 1), ((9, 15), Cell.mk 2 1)] : DayBins) ∧
            c.n ≠ 0) ∧
        x.tot = (ks.map fun j =>
          (cellAt [((9, 0), Cell.mk 1 1), ((9, 15), Cell.mk 2 1)] j).n).sum ∧
        x.wp = (ks.map fun j =>
            cellProb (cellAt [((9, 0), Cell.mk 1 1), ((9, 15), Cell.mk 2 1)] j) *
              ((cellAt [((9, 0), Cell.mk 1 1), ((9, 15), Cell.mk 2 1)] j).n : ℚ)).sum
          / (x.tot : ℚ) ∧
        ∃ lo ∈ ks.map fun j =>
            cellProb (cellAt [((9, 0), Cell.mk 1 1), ((9, 15), Cell.mk 2 1)] j),
          ∃ hi ∈ ks.map fun j =>
              cellProb (cellAt [((9, 0), Cell.mk 1 1), ((9, 15), Cell.mk 2 1)] j),
            (∀ q ∈ ks.map fun j =>
              cellProb (cellAt [((9, 0), Cell.mk 1 1), ((9, 15), Cell.mk 2 1)] j),
              lo ≤ q ∧ q ≤ hi) ∧
            lo ≤ x.wp ∧ x.wp ≤ hi) :=
  ⟨by decide,
    C1_weighted_probability (80 / 100) 1 2 15 3
      [((9, 0), Cell.mk 1 1), ((9, 15), Cell.mk 2 1)] (by decide)⟩

/-- C9: the safe-interval list is well-formed. Every interval starts no
later than it ends and is backed by a chain of contiguous safe bins
from its start key to its end key, and the intervals are pairwise
disjoint and emitted in strictly increasing time order (each interval
ends strictly before the next one starts). -/
theorem C9_safe_intervals_wellformed (thr : ℚ) (minS minRun : Nat)
    (step : Int) (d : DayBins) (hstep : 0 < step)
    (hnd : (d.map Prod.fst).Nodup)
    (hm60 : ∀ j ∈ d.map Prod.fst, j.2 < 60) :
    List.Pairwise (fun x y => to_min x.stop < to_min y.start)
      (merge_and_score thr minS minRun step d) ∧
    ∀ x ∈ merge_and_score thr minS minRun step d,
      to_min x.start ≤ to_min x.stop ∧
      ∃ ks : List HM, ks ≠ [] ∧
        ks.Chain' (fun a b => to_min b - to_min a = step) ∧
        ks.head? = some x.start ∧ ks.getLast? = some x.stop ∧
        ∀ j ∈ ks, j ∈ safe_keys thr minS d := by
  have hKnd : (safe_keys thr minS d).Nodup :=
    (safe_keys_sublist thr minS d).nodup hnd
  have hKm : ∀ j ∈ safe_keys thr minS d, j.2 < 60 := fun j hj =>
    hm60 j ((safe_keys_sublist thr minS d).subset hj)
  have hKsorted := sortedKeys_pairwise hKnd hKm
  constructor
  · rw [merge_and_score]
    by_cases he : (safe_keys thr minS d).isEmpty
    · rw [if_pos he]
      exact List.Pairwise.nil
    · rw [if_neg he]
      rw [scoreRuns, List.pairwise_filterMap]
      have hcross : (groupRuns step
          ((safe_keys thr minS d).insertionSort lexLe)).Pairwise
          (fun r r2 => ∀ u ∈ r, ∀ v ∈ r2, to_min u < to_min v) :=
        (List.pairwise_flatten.mp
          (by rw [groupRuns_flatten]; exact hKsorted)).2
      refine hcross.imp ?_
      intro r r2 h x hxo y hyo
      rw [Option.mem_def] at hxo hyo
      have hx := scoreRun_start_stop_mem hxo
      have hy := scoreRun_start_stop_mem hyo
      exact h _ hx.2 _ hy.1
  · intro x hx
    have hx2 := mem_merge_and_score hx
    rcases mem_scoreRuns.mp hx2 with ⟨r, hr, hscore⟩
    cases r with
    | nil => cases hscore
    | cons j js =>
      have hch := groupRuns_chain step _ _ hr
      rw [scoreRun_eq_some] at hscore
      rcases hscore with ⟨hlen, htot, hxeq⟩
      constructor
      · rw [hxeq]
        dsimp only
        cases js with
        | nil => simp [List.getLastD]
        | cons b t =>
          exact le_of_lt (chain_head_lt_getLast step hstep j (b :: t)
            (List.cons_ne_nil _ _) hch)
      · refine ⟨j :: js, List.cons_ne_nil _ _, hch, ?_, ?_, ?_⟩
        · rw [hxeq]
          rfl
        · rw [hxeq]
          dsimp only
          rw [List.getLast?_cons, List.getLastD_eq_getLast?]
        · intro i hi
          exact (List.perm_insertionSort lexLe _).subset
            (mem_of_mem_groupRuns hr hi)

theorem C9_witness :
    (0 : Int) < 15 ∧
    (([((9, 0), Cell.mk 1 1), ((9, 15), Cell.mk 1 1), ((11, 0), Cell.mk 2 2)] :
      DayBins).map Prod.fst).Nodup ∧
    (∀ j ∈ ([((9, 0), Cell.mk 1 1), ((9, 15), Cell.mk 1 1),
        ((11, 0), Cell.mk 2 2)] : DayBins).map Prod.fst, j.2 < 60) ∧
    (List.Pairwise (fun x y => to_min x.stop < to_min y.start)
      (merge_and_score (80 / 100) 1 2 15
        [((9, 0), Cell.mk 1 1), ((9, 15), Cell.mk 1 1),
          ((11, 0), Cell.mk 2 2)]) ∧
    ∀ x ∈ merge_and_score (80 / 100) 1 2 15
        [((9, 0), Cell.mk 1 1), ((9, 15), Cell.mk 1 1),
          ((11, 0), Cell.mk 2 2)],
      to_min x.start ≤ to_min x.stop ∧
      ∃ ks : List HM, ks ≠ [] ∧
        ks.Chain' (fun a b => to_min b - to_min a = 15) ∧
        ks.head? = some x.start ∧ ks.getLast? = some x.stop ∧
        ∀ j ∈ ks, j ∈ safe_keys (80 / 100) 1
          [((9, 0), Cell.mk 1 1), ((9, 15), Cell.mk 1 1),
            ((11, 0), Cell.mk 2 2)]) :=
  ⟨by decide, by decide, by decide,
    C9_safe_intervals_wellformed (80 / 100) 1 2 15
      [((9, 0), Cell.mk 1 1), ((9, 15), Cell.mk 1 1), ((11, 0), Cell.mk 2 2)]
      (by decide) (by decide) (by decide)⟩

/-- C4: on a day where no cell meets both the probability threshold and
the sample floor, `merge_and_score` returns nothing; the fallback
`top_k_runs` output is then non-empty exactly when the day's data
contains a contiguous run of `minRun` populated bins, regardless of the
probabilities involved; and the fallback list is ranked by
`(weightedProbability, totalSamples)` descending and truncated to at
most `k` entries. -/
theorem C4_fallback_policy (thr : ℚ) (minS minRun : Nat) (step : Int)
    (k : Nat) (d : DayBins)
    (hnq : ∀ e ∈ d, e.2.n ≠ 0 → ¬(thr ≤ cellProb e.2 ∧ minS ≤ e.2.n))
    (hnd : (d.map Prod.fst).Nodup)
    (hm60 : ∀ j ∈ d.map Prod.fst, j.2 < 60)
    (hlat : ∀ j ∈ d.map Prod.fst, step ∣ to_min j)
    (hstep : 0 < step) (hminRun : 1 ≤ minRun) (hk : 1 ≤ k) :
    merge_and_score thr minS minRun step d = [] ∧
    (top_k_runs minRun step k d ≠ [] ↔ hasContigRun step minRun d) ∧
    List.Pairwise rankGe (top_k_runs minRun step k d) ∧
    (top_k_runs minRun step k d).length ≤ k := by
  have hsk : safe_keys thr minS d = [] := by
    rw [safe_keys, List.filterMap_eq_nil]
    intro e he
    by_cases hn : e.2.n = 0
    · rw [if_pos hn]
    · rw [if_neg hn, if_neg (hnq e he hn)]
  have hA : merge_and_score thr minS minRun step d = [] := by
    rw [merge_and_score, hsk]
    rfl
  have hpnd : ((probsAssoc d).map Prod.fst).Nodup :=
    (probsAssoc_keys_sublist d).nodup hnd
  have hKsorted := sortedKeys_pairwise hpnd
    (fun j hj => hm60 j ((probsAssoc_keys_sublist d).subset hj))
  have hKlat : ∀ j ∈ ((probsAssoc d).map Prod.fst).insertionSort lexLe,
      step ∣ to_min j := fun j hj =>
    hlat j ((probsAssoc_keys_sublist d).subset
      ((List.perm_insertionSort lexLe _).subset hj))
  have htop : top_k_runs minRun step k d =
      if (probsAssoc d).isEmpty then []
      else ((scoreRuns (probOf d) minRun (groupRuns step
        (((probsAssoc d).map Prod.fst).insertionSort lexLe))).insertionSort
          rankGe).take k := rfl
  have hscored : scoreRuns (probOf d) minRun (groupRuns step
      (((probsAssoc d).map Prod.fst).insertionSort lexLe)) ≠ [] ↔
      hasContigRun step minRun d := by
    constructor
    · intro hne
      rcases List.exists_mem_of_ne_nil _ hne with ⟨x, hx⟩
      rcases mem_scoreRuns.mp hx with ⟨r, hr, hscore⟩
      cases r with
      | nil => cases hscore
      | cons j js =>
        rw [scoreRun_eq_some] at hscore
        rcases hscore with ⟨hlen, -, -⟩
        refine ⟨(j :: js).take minRun, ?_,
          (groupRuns_chain step _ _ hr).take _, ?_⟩
        · rw [List.length_take]
          exact min_eq_left hlen
        · intro i hi
          have hiR : i ∈ j :: js := (List.take_sublist _ _).subset hi
          exact mem_probsAssoc_keys.mp
            ((List.perm_insertionSort lexLe _).subset
              (mem_of_mem_groupRuns hr hiR))
    · intro hcr
      obtain ⟨ks, hlen, hch, hpop⟩ := hcr
      have hksne : ks ≠ [] := List.length_pos.mp (by omega)
      have hmemK : ∀ i ∈ ks,
          i ∈ ((probsAssoc d).map Prod.fst).insertionSort lexLe := fun i hi =>
        (List.perm_insertionSort lexLe _).symm.subset
          (mem_probsAssoc_keys.mpr (hpop i hi))
      rcases chain_sub_run step hstep _ hKsorted hKlat ks hksne hch hmemK with
        ⟨r, hr, hsub⟩
      have hknd : ks.Nodup :=
        nodup_of_sorted_to_min (chain_step_pairwise step hstep ks hch)
      have hrlen0 := (hknd.subperm fun i hi => hsub i hi).length_le
      cases r with
      | nil => exact (groupRuns_ne_nil step _ _ hr rfl).elim
      | cons j js =>
        have hrlen : minRun ≤ (j :: js).length := by omega
        have hjmem : j ∈ ((probsAssoc d).map Prod.fst).insertionSort lexLe :=
          mem_of_mem_groupRuns hr (List.mem_cons_self _ _)
        have hn1 : (probOf d j).2 ≠ 0 :=
          probOf_snd_ne_zero ((List.perm_insertionSort lexLe _).subset hjmem)
        have htotne : ((j :: js).map fun i => (probOf d i).2).sum ≠ 0 := by
          rw [List.map_cons, List.sum_cons]
          omega
        exact List.ne_nil_of_mem (mem_scoreRuns.mpr
          ⟨j :: js, hr, scoreRun_eq_some.mpr ⟨hrlen, htotne, rfl⟩⟩)
  have hiff : top_k_runs minRun step k d ≠ [] ↔ hasContigRun step minRun d := by
    rw [htop]
    by_cases he : (probsAssoc d).isEmpty
    · rw [if_pos he]
      have hpa : probsAssoc d = [] := List.isEmpty_iff.mp he
      constructor
      · intro h
        exact (h rfl).elim
      · intro hcr
        refine ((hscored.mpr hcr) ?_).elim
        rw [hpa]
        rfl
    · rw [if_neg he]
      constructor
      · intro h
        apply hscored.mp
        intro h0
        apply h
        rw [h0]
        simp
      · intro hcr
        have hs := hscored.mpr hcr
        have hsort : (scoreRuns (probOf d) minRun (groupRuns step
            (((probsAssoc d).map Prod.fst).insertionSort
              lexLe))).insertionSort rankGe ≠ [] := by
          intro h0
          have hp := List.perm_insertionSort rankGe
            (scoreRuns (probOf d) minRun (groupRuns step
              (((probsAssoc d).map Prod.fst).insertionSort lexLe)))
          rw [h0] at hp
          exact hs hp.symm.eq_nil
        exact take_ne_nil hsort hk
  have hC : List.Pairwise rankGe (top_k_runs minRun step k d) := by
    rw [htop]
    by_cases he : (probsAssoc d).isEmpty
    · rw [if_pos he]
      exact List.Pairwise.nil
    · rw [if_neg he]
      exact List.Pairwise.sublist (List.take_sublist _ _)
        (List.sorted_insertionSort rankGe _)
  have hD : (top_k_runs minRun step k d).length ≤ k := by
    rw [htop]
    by_cases he : (probsAssoc d).isEmpty
    · rw [if_pos he]
      simp
    · rw [if_neg he]
      rw [List.length_take]
      exact min_le_left _ _
  exact ⟨hA, hiff, hC, hD⟩

theorem C4_witness :
    (∀ e ∈ ([((9, 0), Cell.mk 2 1), ((9, 15), Cell.mk 2 1)] : DayBins),
      e.2.n ≠ 0 → ¬(80 / 100 ≤ cellProb e.2 ∧ 1 ≤ e.2.n)) ∧
    (([((9, 0), Cell.mk 2 1), ((9, 15), Cell.mk 2 1)] : DayBins).map
      Prod.fst).Nodup ∧
    (∀ j ∈ ([((9, 0), Cell.mk 2 1), ((9, 15), Cell.mk 2 1)] : DayBins).map
      Prod.fst, j.2 < 60) ∧
    (∀ j ∈ ([((9, 0), Cell.mk 2 1), ((9, 15), Cell.mk 2 1)] : DayBins).map
      Prod.fst, (15 : Int) ∣ to_min j) ∧
    (0 : Int) < 15 ∧ 1 ≤ 2 ∧ 1 ≤ 3 ∧
    (merge_and_score (80 / 100) 1 2 15
        [((9, 0), Cell.mk 2 1), ((9, 15), Cell.mk 2 1)] = [] ∧
      (top_k_runs 2 15 3 [((9, 0), Cell.mk 2 1), ((9, 15), Cell.mk 2 1)] ≠ []
        ↔ hasContigRun 15 2 [((9, 0), Cell.mk 2 1), ((9, 15), Cell.mk 2 1)]) ∧
      List.Pairwise rankGe
        (top_k_runs 2 15 3 [((9, 0), Cell.mk 2 1), ((9, 15), Cell.mk 2 1)]) ∧
      (top_k_runs 2 15 3
        [((9, 0), Cell.mk 2 1), ((9, 15), Cell.mk 2 1)]).length ≤ 3) :=
  ⟨by norm_num [cellProb], by decide, by decide,
    by norm_num [to_min], by decide, by decide, by decide,
    C4_fallback_policy (80 / 100) 1 2 15 3
      [((9, 0), Cell.mk 2 1), ((9, 15), Cell.mk 2 1)]
      (by norm_num [cellProb]) (by decide) (by decide)
      (by norm_num [to_min]) (by decide) (by decide) (by decide)⟩

end Chargelog
